import Mathlib

/-!
Formal model of the incremental-freshness and state-reconciliation core of
`job_checker.py` (repository `find-my-next-job`), as a shallow embedding:
Python strings are `List Char`, Python's `str` methods (`lower`, `strip`,
`split`, `replace`, the `in` operator) are modelled character-by-character
with Python's exact semantics (`replace` and `split` scan left to right,
non-overlapping), dates and datetimes are calendar-day numbers, and the
stateful dict of per-source watermarks is a function from source id to an
optional `SourceState`.
-/

namespace JobChecker

abbrev Str := List Char

/-- ASCII model of Python's `str.lower` for a single character. -/
def pyLower (c : Char) : Char :=
  if 'A' ≤ c ∧ c ≤ 'Z' then Char.ofNat (c.toNat + 32) else c

/-- Python's default `str.strip` whitespace set (space, tab, LF, CR, FF, VT). -/
def pyIsSpace (c : Char) : Bool :=
  c = ' ' || c = '\t' || c = '\n' || c = '\r' || c = '\x0b' || c = '\x0c'

/-- The character class `\d` of the regexes in `parse_relative_date` (ASCII digits). -/
def pyIsDigit (c : Char) : Bool := '0' ≤ c && c ≤ '9'

/-- Python's `str.strip()`: drop leading and trailing whitespace. -/
def pyStrip (s : Str) : Str :=
  ((s.dropWhile pyIsSpace).reverse.dropWhile pyIsSpace).reverse

/-- Python's `str.lower()` (ASCII model). -/
def pyLowerStr (s : Str) : Str := s.map pyLower

/-- Python's substring operator `pat in s`. -/
def isSubstr (pat : Str) : Str → Bool
  | [] => pat.isEmpty
  | c :: rest => pat.isPrefixOf (c :: rest) || isSubstr pat rest

/-- `int(...)` applied to a nonempty run of ASCII digits (the regex group `(\d+)`). -/
def natOfDigits (ds : Str) : Nat :=
  List.foldl (fun acc c => acc * 10 + (c.toNat - 48)) 0 ds

/-- Split a string at the first occurrence of `sep`, returning the parts before
and after it; `none` when `sep` does not occur.  `s.split(sep, 1)` in Python
(under the guard that `sep` occurs) is `(p, r)` with
`findSplit sep s = some (p, r)`. -/
def findSplit (sep : Str) : Str → Option (Str × Str)
  | [] => if sep = [] then some ([], []) else none
  | c :: rest =>
    if sep.isPrefixOf (c :: rest) then some ([], (c :: rest).drop sep.length)
    else
      match findSplit sep rest with
      | some (pre, post) => some (c :: pre, post)
      | none => none

/-- Fuel-driven worker for Python's `str.replace`: scan left to right,
replacing non-overlapping occurrences of `old` by `new`.  The fuel only
serves structural termination; `pyReplace` supplies `s.length`, which is
always enough. -/
def replaceFuel (old new : Str) : Nat → Str → Str
  | _, [] => []
  | 0, s => s
  | fuel + 1, c :: rest =>
    if old.isPrefixOf (c :: rest) then
      new ++ replaceFuel old new fuel ((c :: rest).drop old.length)
    else
      c :: replaceFuel old new fuel rest

/-- Python's `s.replace(old, new)` for nonempty `old` (the only uses in the
source are `old = "://jobs/"` and `old = "//"`). -/
def pyReplace (old new s : Str) : Str :=
  if old = [] then s else replaceFuel old new s.length s

/-- Fuel-driven worker for Python's `str.split(sep)` with nonempty `sep`. -/
def splitFuel (sep : Str) : Nat → Str → Str → List Str
  | _, [], acc => [acc.reverse]
  | 0, s, acc => [acc.reverse ++ s]
  | fuel + 1, c :: rest, acc =>
    if sep.isPrefixOf (c :: rest) then
      acc.reverse :: splitFuel sep fuel ((c :: rest).drop sep.length) []
    else
      splitFuel sep fuel rest (c :: acc)

/-- Python's `s.split(sep)` for nonempty `sep`. -/
def pySplit (sep s : Str) : List Str :=
  if sep = [] then [s] else splitFuel sep s.length s []

/-! ### The Date Normalizer: `parse_relative_date` (src/job_checker.py lines 174-219)

The regexes of the source are deterministic on their own character classes
(a digit is never a `+`, a whitespace or a unit letter, so the greedy `\d+`
and `\s*` never need backtracking), which lets each `re.search` be modelled
as a left-to-right scan over start positions; `group(1)` is the digit run. -/

/-- `re.search(r"less than\s*(\d+)\s*days?", text)`, returning `int(group(1))`. -/
def matchLessThan (lit unit : Str) : Str → Option Nat
  | [] => none
  | c :: rest =>
    if lit.isPrefixOf (c :: rest) then
      let a := ((c :: rest).drop lit.length).dropWhile pyIsSpace
      let digs := a.takeWhile pyIsDigit
      if digs = [] then matchLessThan lit unit rest
      else if unit.isPrefixOf ((a.dropWhile pyIsDigit).dropWhile pyIsSpace) then
        some (natOfDigits digs)
      else matchLessThan lit unit rest
    else matchLessThan lit unit rest

/-- `re.search(r"(\d+)[+]?\s*unit...(?:\s*ago)?", text)`, returning
`int(group(1))`; with `requirePlus` the literal `+` after the digits is
mandatory (the `"X+ days"` pattern).  The optional trailing `s` and
`(?:\s*ago)?` of the source regexes never affect whether a match exists,
so they do not appear. -/
def matchNumUnit (unit : Str) (requirePlus : Bool) : Str → Option Nat
  | [] => none
  | c :: rest =>
    if pyIsDigit c then
      let digs := (c :: rest).takeWhile pyIsDigit
      let after := (c :: rest).dropWhile pyIsDigit
      let afterPlus :=
        if requirePlus then
          match after with
          | '+' :: r => some r
          | _ => none
        else some after
      match afterPlus with
      | some a =>
        if unit.isPrefixOf (a.dropWhile pyIsSpace) then some (natOfDigits digs)
        else matchNumUnit unit requirePlus rest
      | none => matchNumUnit unit requirePlus rest
    else matchNumUnit unit requirePlus rest

def justNowLit : Str := ('j' :: ('u' :: ('s' :: ('t' :: (' ' :: ('n' :: ('o' :: ('w' :: []))))))))
def todayLit : Str := ('t' :: ('o' :: ('d' :: ('a' :: ('y' :: [])))))
def yesterdayLit : Str := ('y' :: ('e' :: ('s' :: ('t' :: ('e' :: ('r' :: ('d' :: ('a' :: ('y' :: [])))))))))
def lessThanLit : Str := ('l' :: ('e' :: ('s' :: ('s' :: (' ' :: ('t' :: ('h' :: ('a' :: ('n' :: [])))))))))
def hourLit : Str := ('h' :: ('o' :: ('u' :: ('r' :: []))))
def dayLit : Str := ('d' :: ('a' :: ('y' :: [])))
def weekLit : Str := ('w' :: ('e' :: ('e' :: ('k' :: []))))
def monthLit : Str := ('m' :: ('o' :: ('n' :: ('t' :: ('h' :: [])))))

/-- Body of `parse_relative_date` after the `text = text.lower().strip()`
reassignment; `t` is the normalized text. -/
def parseRelAux (t : Str) : Option Int :=
  if isSubstr justNowLit t || isSubstr todayLit t then some 0
  else if isSubstr yesterdayLit t then some 1
  else
    match matchLessThan lessThanLit dayLit t with
    | some n => some (max 0 ((n : Int) - 1))
    | none =>
      match matchNumUnit hourLit false t with
      | some _ => some 0
      | none =>
        match matchNumUnit dayLit true t with
        | some n => some (n : Int)
        | none =>
          match matchNumUnit dayLit false t with
          | some n => some (n : Int)
          | none =>
            match matchNumUnit weekLit false t with
            | some n => some ((n : Int) * 7)
            | none =>
              match matchNumUnit monthLit false t with
              | some n => some ((n : Int) * 30)
              | none => none

/-- `parse_relative_date` (src/job_checker.py lines 174-219): turn a relative
date expression into a days-ago count, `none` when no pattern matches. -/
def parse_relative_date (text : Str) : Option Int :=
  parseRelAux (pyStrip (pyLowerStr text))

/-! ### The URL Normalizer: `clean_job_url` (src/job_checker.py lines 149-171) -/

def schemePat : Str := (':' :: ('/' :: ('/' :: [])))
def dslash : Str := ('/' :: ('/' :: []))
def slash : Str := ('/' :: [])
def jobsWord : Str := ('j' :: ('o' :: ('b' :: ('s' :: []))))
/-- The literal `"://jobs/"`. -/
def jobsPat : Str := schemePat ++ jobsWord ++ slash
/-- The literal `"/jobs/"`. -/
def jobsSuffix : Str := slash ++ jobsWord ++ slash

/-- First branch of `clean_job_url` (src/job_checker.py lines 154-164):
when the authority of `href` was misread as `jobs` (`"://jobs/" in href`
and `domain_part = href.split("://")[1].split("/")[0]` equals `"jobs"`),
splice in the host `source_url.split("/")[2]` by replacing every
`"://jobs/"` with `"://{domain}/jobs/"`; otherwise leave `href` alone. -/
def repairJobsHost (href source_url : Str) : Str :=
  if isSubstr jobsPat href then
    if (pySplit slash ((pySplit schemePat href).getD 1 [])).getD 0 [] = jobsWord then
      if 3 ≤ (pySplit slash source_url).length then
        pyReplace jobsPat (schemePat ++ (pySplit slash source_url).getD 2 [] ++ jobsSuffix) href
      else href
    else href
  else href

/-- `clean_job_url(href, source_url)` (src/job_checker.py lines 149-171):
empty `href` is returned as is; otherwise the host repair runs first, then,
when `"://" in href`, the URL is split at the first `"://"` and doubled
slashes in the remainder are collapsed (the `match` on `findSplit` is
Python's guarded `href.split("://", 1)`: it is `some` exactly when `"://"`
occurs). -/
def clean_job_url (href source_url : Str) : Str :=
  if href = [] then href
  else
    match findSplit schemePat (repairJobsHost href source_url) with
    | some (protocol, rest) => protocol ++ schemePat ++ pyReplace dslash slash rest
    | none => repairJobsHost href source_url

/-- The part of a URL after the first `"://"` ( `[]` when there is none). -/
def restOfScheme (h : Str) : Str :=
  match findSplit schemePat h with
  | some (_, r) => r
  | none => []

/-- A URL in normal form: no `"://jobs/"` (so the host-repair branch is
inert) and no doubled slash after the scheme separator (so the
slash-collapse is inert). -/
def isNormalizedUrl (h : Str) : Bool :=
  !(isSubstr jobsPat h) && !(isSubstr dslash (restOfScheme h))

/-- `c = '?' ∨ c = '#'`: the characters that open the query or fragment. -/
def isSpec (c : Char) : Bool := c = '?' || c = '#'

/-- The suffix of a URL from its first `'?'` or `'#'` on. -/
def tailFrom (h : Str) : Str := h.dropWhile (fun c => !(isSpec c))

/-- The fragment of a URL: everything after the first `'#'`. -/
def fragmentOf (h : Str) : Str := (h.dropWhile (fun c => !(c = '#' : Bool))).drop 1

/-- The query of a URL: everything after the first `'?'` of the
pre-fragment part. -/
def queryOf (h : Str) : Str :=
  ((h.takeWhile (fun c => !(c = '#' : Bool))).dropWhile (fun c => !(c = '?' : Bool))).drop 1

/-! ### Data model (src/job_checker.py lines 33-69)

Calendar dates are day numbers (`Nat`); a datetime is a date plus a
time-of-day, ordered lexicographically, which is exactly the order of the
well-formed ISO strings the source stores and reparses
(`datetime.isoformat` / `datetime.fromisoformat` are inverse,
order-preserving bijections on the values that actually reach the state). -/

structure PyDateTime where
  date : Nat
  timeOfDay : Nat
deriving DecidableEq, Repr

/-- Lexicographic order on datetimes, i.e. the order of their ISO strings. -/
def PyDateTime.le (a b : PyDateTime) : Prop :=
  a.date < b.date ∨ (a.date = b.date ∧ a.timeOfDay ≤ b.timeOfDay)

instance (a b : PyDateTime) : Decidable (PyDateTime.le a b) := by
  unfold PyDateTime.le; infer_instance

/-- The `Job` dataclass (src/job_checker.py lines 33-49).  `posted_date` is
`none` for Python's `None` and for any string that is falsy in
`if job.posted_date:` (i.e. the empty string); otherwise it is the parsed
calendar date.  `days_ago` may be negative (the absolute-date paths compute
`(now - posted).days`). -/
structure Job where
  title : Str
  company : Option Str
  source_id : Str
  url : Str
  location : Option Str := none
  posted_date : Option Nat := none
  days_ago : Option Int := none
  scraped_at : Str := []
  potential_duplicate : Bool := false
deriving DecidableEq, Repr

/-- `Job.get_duplicate_key` (src/job_checker.py lines 51-61): `none` when
`company` is falsy (Python `None` or the empty string), else the
lowercased, stripped `"company|title"` fingerprint. -/
def Job.get_duplicate_key (j : Job) : Option Str :=
  match j.company with
  | none => none
  | some c =>
    if c = [] then none
    else some (pyStrip (pyLowerStr c) ++ ('|' :: []) ++ pyStrip (pyLowerStr j.title))

/-- The `SourceState` dataclass (src/job_checker.py lines 64-69). -/
structure SourceState where
  last_scraped : PyDateTime
  known_job_urls : List Str
deriving DecidableEq, Repr

/-- The in-memory state dict `dict[str, SourceState]`. -/
abbrev StateMap := Str → Option SourceState

/-! ### The Freshness Classifier: `find_new_jobs` (src/job_checker.py lines 918-954) -/

/-- `find_new_jobs(jobs, source_state)`: keep a job when its source has no
state yet; drop it when its URL is already known; otherwise, with a posted
date, keep it iff the date is on or after the watermark's calendar date;
without a date, keep it. -/
def find_new_jobs (jobs : List Job) (source_state : StateMap) : List Job :=
  match jobs with
  | [] => []
  | job :: rest =>
    match source_state job.source_id with
    | none => job :: find_new_jobs rest source_state
    | some state =>
      if job.url ∈ state.known_job_urls then find_new_jobs rest source_state
      else
        match job.posted_date with
        | some posted =>
          if state.last_scraped.date ≤ posted then job :: find_new_jobs rest source_state
          else find_new_jobs rest source_state
        | none => job :: find_new_jobs rest source_state

/-! ### The Source State Store: `update_state` (src/job_checker.py lines 957-988) -/

/-- A list whose members are `set(a) | set(b)`.  The source materialises
`list(set(existing_urls) | set(current_urls))` whose element order Python
leaves unspecified; every claim about `known_job_urls` reads it as a set,
so any membership-faithful representative will do. -/
def listUnion (a b : List Str) : List Str :=
  a ++ b.filter (fun u => !(decide (u ∈ a)))

/-- The grouping `jobs_by_source[sid]` built by `update_state`: the jobs of
source `sid`, in encounter order. -/
def sourceJobs (jobs : List Job) (sid : Str) : List Job :=
  jobs.filter (fun j => decide (j.source_id = sid))

/-- `current_urls = [job.url for job in source_jobs]`. -/
def currentUrls (jobs : List Job) (sid : Str) : List Str :=
  (sourceJobs jobs sid).map (fun j => j.url)

/-- `update_state(state, jobs, scrape_time)`: group `jobs` by `source_id`;
each source with at least one job gets `last_scraped = scrape_time` and its
job URLs merged (union) into `known_job_urls`; sources with no job in this
run keep their entry untouched.  The Python loop mutates the dict key by
key; since each key is written at most once, the net effect is this
per-key function. -/
def update_state (state : StateMap) (jobs : List Job) (scrape_time : PyDateTime) : StateMap :=
  fun sid =>
    if sourceJobs jobs sid = [] then state sid
    else
      match state sid with
      | some st =>
        some { last_scraped := scrape_time,
               known_job_urls := listUnion st.known_job_urls (currentUrls jobs sid) }
      | none =>
        some { last_scraped := scrape_time, known_job_urls := currentUrls jobs sid }

/-! ### Global URL deduplication in `main` (src/job_checker.py lines 1178-1183)

`unique_jobs = {}` then `for job in all_jobs: if job.url not in unique_jobs:
unique_jobs[job.url] = job`, finally `list(unique_jobs.values())` — a dict
keyed by URL, insertion-ordered, never overwritten. -/

def dedupeGo (seen : List Str) : List Job → List Job
  | [] => []
  | job :: rest =>
    if job.url ∈ seen then dedupeGo seen rest
    else job :: dedupeGo (job.url :: seen) rest

/-- The URL-deduplication pass of `main`. -/
def dedupe_by_url (jobs : List Job) : List Job := dedupeGo [] jobs

/-! ### The Duplicate Detector: `mark_potential_duplicates`
(src/job_checker.py lines 834-848) -/

def markGo (existing_keys : List Str) (seen : List Str) : List Job → List Job
  | [] => []
  | job :: rest =>
    match job.get_duplicate_key with
    | none => job :: markGo existing_keys seen rest
    | some key =>
      (if key ∈ existing_keys ∨ key ∈ seen then
        { job with potential_duplicate := true }
      else job) :: markGo existing_keys (key :: seen) rest

/-- `mark_potential_duplicates(jobs, existing_keys)`: flag a job whose
fingerprint is in `existing_keys` or was already seen earlier in this
batch; keys of processed jobs accumulate in `seen_in_batch`.  (Python
mutates each `Job` in place and returns the same list; the model returns
the updated jobs.)  `existing_keys` is a Python `set`, read only through
membership, modelled as a list. -/
def mark_potential_duplicates (jobs : List Job) (existing_keys : List Str) : List Job :=
  markGo existing_keys [] jobs

/-! ## Theorems -/

/-- C7: the relative-date parsing table of the spec holds verbatim:
`"today" → 0`, `"yesterday" → 1`, `"3 days ago" → 3`, `"30+ days ago" → 30`,
`"2 weeks ago" → 14`, `"about 5 hours ago" → 0`, `"less than 2 days" → 1`,
and `"gibberish"` parses to nothing. -/
theorem parse_relative_date_table :
    parse_relative_date (("today").toList) = some 0
    ∧ parse_relative_date (("yesterday").toList) = some 1
    ∧ parse_relative_date (("3 days ago").toList) = some 3
    ∧ parse_relative_date (("30+ days ago").toList) = some 30
    ∧ parse_relative_date (("2 weeks ago").toList) = some 14
    ∧ parse_relative_date (("about 5 hours ago").toList) = some 0
    ∧ parse_relative_date (("less than 2 days").toList) = some 1
    ∧ parse_relative_date (("gibberish").toList) = none := by
  refine ⟨?_, ?_, ?_, ?_, ?_, ?_, ?_, ?_⟩ <;> decide

/-- C10: `parse_relative_date` never yields a negative days-ago value: every
defined result is `≥ 0` (each branch returns `0`, `1`, `max 0 (n-1)`, `n`,
`n*7` or `n*30` for a `Nat` capture `n`). -/
theorem parse_relative_date_nonneg (s : Str) (r : Int)
    (h : parse_relative_date s = some r) : 0 ≤ r := by
  unfold parse_relative_date parseRelAux at h
  split at h
  · injection h with h; omega
  · split at h
    · injection h with h; omega
    · split at h
      · rename_i n hn; injection h with h; subst h; exact le_max_left 0 _
      · split at h
        · injection h with h; omega
        · split at h
          · rename_i n hn; injection h with h; subst h; exact Int.natCast_nonneg n
          · split at h
            · rename_i n hn; injection h with h; subst h; exact Int.natCast_nonneg n
            · split at h
              · rename_i n hn; injection h with h; subst h; positivity
              · split at h
                · rename_i n hn; injection h with h; subst h; positivity
                · exact absurd h (by simp)

/-- Witness for C10 at the concrete input `"3 days ago"`. -/
theorem parse_relative_date_nonneg_witness :
    parse_relative_date (("3 days ago").toList) = some 3 ∧ (0 : Int) ≤ 3 :=
  ⟨by decide, parse_relative_date_nonneg (("3 days ago").toList) 3 (by decide)⟩

/-! ### C1: global URL deduplication -/

/-- Two distinct listings sharing one URL, for the deduplication claims. -/
def jobA : Job :=
  { title := ('a' :: []), company := none, source_id := ('s' :: []), url := ('u' :: []) }

def jobB : Job :=
  { title := ('b' :: []), company := none, source_id := ('s' :: []), url := ('u' :: []) }

/-- C1 counterexample: on two listings with equal URLs the dedup loop of
`main` keeps the listing that occurs FIRST, not last — `jobB`, the later
one, is not in the deduplicated set, refuting last-seen-wins. -/
theorem dedupe_by_url_not_last_seen_wins :
    jobA ≠ jobB
    ∧ dedupe_by_url (jobA :: (jobB :: [])) = (jobA :: [])
    ∧ ¬ jobB ∈ dedupe_by_url (jobA :: (jobB :: [])) := by
  refine ⟨?_, ?_, ?_⟩ <;> decide

lemma dedupeGo_filter (u : Str) (jobs : List Job) : ∀ (seen : List Str),
    (dedupeGo seen jobs).filter (fun j => decide (j.url = u)) =
      if u ∈ seen then [] else (jobs.filter (fun j => decide (j.url = u))).take 1 := by
  induction jobs with
  | nil => intro seen; by_cases hu : u ∈ seen <;> simp [dedupeGo, hu]
  | cons j rest ih =>
    intro seen
    by_cases hj : j.url ∈ seen
    · rw [dedupeGo, if_pos hj, ih seen]
      by_cases hu : u ∈ seen
      · simp [hu]
      · have hne : ¬ (j.url = u) := fun e => hu (e ▸ hj)
        simp [hu, List.filter_cons, hne]
    · rw [dedupeGo, if_neg hj]
      by_cases hju : j.url = u
      · subst hju
        rw [List.filter_cons_of_pos (by simp), ih (j.url :: seen),
          if_pos (List.mem_cons_self _ _), if_neg hj,
          List.filter_cons_of_pos (by simp)]
        simp
      · have hne2 : ¬ u = j.url := fun e => hju e.symm
        rw [List.filter_cons_of_neg (by simpa using hju), ih (j.url :: seen)]
        by_cases hu : u ∈ seen
        · rw [if_pos (List.mem_cons_of_mem _ hu), if_pos hu]
        · rw [if_neg (by simp [List.mem_cons, hne2, hu]), if_neg hu,
            List.filter_cons_of_neg (by simpa using hju)]

/-- C1 amended: global URL deduplication is FIRST-seen-wins — for every URL
`u`, the deduplicated sequence retains exactly the first listing of the
combined sequence carrying `u` (the source checks
`if job.url not in unique_jobs`, so a later collision never overwrites). -/
theorem dedupe_by_url_first_seen_wins (jobs : List Job) (u : Str) :
    (dedupe_by_url jobs).filter (fun j => decide (j.url = u)) =
      (jobs.filter (fun j => decide (j.url = u))).take 1 := by
  rw [dedupe_by_url, dedupeGo_filter]
  simp

/-! ### C2: URL suppression dominance in `find_new_jobs` -/

/-- C2: a listing whose URL is in its source state's `knownUrls` is never in
the output of `find_new_jobs`, whatever its `posted_date` (the URL test at
line 940 precedes and short-circuits the date test). -/
theorem find_new_jobs_url_suppression (jobs : List Job) (state : StateMap)
    (job : Job) (st : SourceState) (h1 : state job.source_id = some st)
    (h2 : job.url ∈ st.known_job_urls) :
    ¬ job ∈ find_new_jobs jobs state := by
  induction jobs with
  | nil => simp [find_new_jobs]
  | cons j rest ih =>
    cases hj : state j.source_id with
    | none =>
      simp only [find_new_jobs, hj, List.mem_cons]
      rintro (he | hm)
      · subst he; rw [h1] at hj; cases hj
      · exact ih hm
    | some stj =>
      by_cases hknown : j.url ∈ stj.known_job_urls
      · simp only [find_new_jobs, hj, if_pos hknown]
        exact ih
      · have hne : ¬ job = j := by
          intro e; subst e; rw [h1] at hj
          injection hj with e2; subst e2; exact hknown h2
        cases hpd : j.posted_date with
        | some posted =>
          by_cases hle : stj.last_scraped.date ≤ posted
          · simp only [find_new_jobs, hj, if_neg hknown, hpd, if_pos hle, List.mem_cons]
            rintro (he | hm)
            · exact hne he
            · exact ih hm
          · simp only [find_new_jobs, hj, if_neg hknown, hpd, if_neg hle]
            exact ih
        | none =>
          simp only [find_new_jobs, hj, if_neg hknown, hpd, List.mem_cons]
          rintro (he | hm)
          · exact hne he
          · exact ih hm

/-- Concrete state for the C2 witness: source `"s"` with watermark date 5
and known URL `"u"`. -/
def knownState : StateMap :=
  fun sid =>
    if sid = ('s' :: []) then
      some { last_scraped := { date := 5, timeOfDay := 0 },
             known_job_urls := (('u' :: []) :: []) }
    else none

/-- A listing with known URL `"u"` and `posted_date` 10, strictly after the
watermark date 5 of `knownState`. -/
def jobKnownUrl : Job :=
  { title := ('t' :: []), company := none, source_id := ('s' :: []),
    url := ('u' :: []), posted_date := some 10 }

/-- Witness for C2: even with `posted_date` after the watermark, a listing
with a known URL is not classified new. -/
theorem find_new_jobs_url_suppression_witness :
    knownState jobKnownUrl.source_id =
      some { last_scraped := { date := 5, timeOfDay := 0 },
             known_job_urls := (('u' :: []) :: []) }
    ∧ jobKnownUrl.url ∈ (('u' :: []) :: [])
    ∧ (∃ p, jobKnownUrl.posted_date = some p ∧ 5 < p)
    ∧ ¬ jobKnownUrl ∈ find_new_jobs (jobKnownUrl :: []) knownState :=
  ⟨by decide, by decide, ⟨10, by decide, by decide⟩,
    find_new_jobs_url_suppression (jobKnownUrl :: []) knownState jobKnownUrl
      { last_scraped := { date := 5, timeOfDay := 0 },
        known_job_urls := (('u' :: []) :: []) }
      (by decide) (by decide)⟩

/-! ### C3, C6, C9: the Source State Store -/

lemma PyDateTime.le_refl (a : PyDateTime) : PyDateTime.le a a :=
  Or.inr ⟨rfl, Nat.le_refl _⟩

lemma mem_listUnion (u : Str) (a b : List Str) :
    u ∈ listUnion a b ↔ u ∈ a ∨ u ∈ b := by
  by_cases h : u ∈ a <;> simp [listUnion, List.mem_filter, h]

/-- Prior state for the watermark counterexample: source `"s"`, watermark
date 5, no known URLs. -/
def stalePrior : SourceState :=
  { last_scraped := { date := 5, timeOfDay := 0 }, known_job_urls := [] }

def priorState : StateMap :=
  fun sid => if sid = ('s' :: []) then some stalePrior else none

def runJob : Job :=
  { title := ('t' :: []), company := none, source_id := ('s' :: []), url := ('w' :: []) }

/-- C3 counterexample: `update_state` stores `scrape_time` verbatim, so a
`scrape_time` (date 3) older than the stored watermark (date 5) moves
`lastScraped` backward — the claim fails for arbitrary `scrape_time`. -/
theorem update_state_watermark_cex :
    priorState (('s' :: [])) = some stalePrior
    ∧ update_state priorState (runJob :: []) { date := 3, timeOfDay := 0 } (('s' :: []))
        = some { last_scraped := { date := 3, timeOfDay := 0 },
                 known_job_urls := (('w' :: []) :: []) }
    ∧ ¬ PyDateTime.le stalePrior.last_scraped ({ date := 3, timeOfDay := 0 }) := by
  refine ⟨by decide, by decide, ?_⟩
  intro h
  rcases h with h | ⟨h, _⟩
  · exact absurd h (by decide)
  · exact absurd h (by decide)

/-- C3 amended: the watermark is monotone for every source already in the
state whenever the run's `scrape_time` is not older than that source's
stored watermark (`main` always passes `datetime.now()`, taken after the
stored watermarks were written): a source with listings this run gets
exactly `scrape_time`, a source without listings keeps its old value. -/
theorem update_state_watermark_monotone (state : StateMap) (jobs : List Job)
    (t : PyDateTime) (sid : Str) (st : SourceState)
    (h1 : state sid = some st) (h2 : PyDateTime.le st.last_scraped t) :
    ∃ st2, update_state state jobs t sid = some st2
      ∧ PyDateTime.le st.last_scraped st2.last_scraped := by
  unfold update_state
  by_cases he : sourceJobs jobs sid = []
  · rw [if_pos he, h1]
    exact ⟨st, rfl, PyDateTime.le_refl _⟩
  · rw [if_neg he, h1]
    exact ⟨_, rfl, h2⟩

/-- Witness for C3 (amended): prior watermark date 5, run at date 9. -/
theorem update_state_watermark_monotone_witness :
    priorState (('s' :: [])) = some stalePrior
    ∧ PyDateTime.le stalePrior.last_scraped ({ date := 9, timeOfDay := 0 })
    ∧ ∃ st2, update_state priorState (runJob :: []) { date := 9, timeOfDay := 0 } (('s' :: []))
        = some st2 ∧ PyDateTime.le stalePrior.last_scraped st2.last_scraped :=
  ⟨by decide, Or.inl (by decide),
    update_state_watermark_monotone priorState (runJob :: [])
      { date := 9, timeOfDay := 0 } (('s' :: [])) stalePrior (by decide)
      (Or.inl (by decide))⟩

/-- C6: for every source already in the state, `update_state` yields a state
whose `knownUrls` is exactly the union of the prior `knownUrls` with the
URLs of this run's filtered listings for that source — in particular a
superset of the prior set (union, never replacement). -/
theorem update_state_known_urls_union (state : StateMap) (jobs : List Job)
    (t : PyDateTime) (sid : Str) (st : SourceState) (h : state sid = some st) :
    ∃ st2, update_state state jobs t sid = some st2
      ∧ (∀ u, u ∈ st.known_job_urls → u ∈ st2.known_job_urls)
      ∧ (∀ u, u ∈ st2.known_job_urls ↔ (u ∈ st.known_job_urls ∨ u ∈ currentUrls jobs sid)) := by
  unfold update_state
  by_cases he : sourceJobs jobs sid = []
  · rw [if_pos he, h]
    refine ⟨st, rfl, fun u hu => hu, fun u => ?_⟩
    simp [currentUrls, he]
  · rw [if_neg he, h]
    refine ⟨_, rfl, fun u hu => ?_, fun u => mem_listUnion u _ _⟩
    exact (mem_listUnion u _ _).mpr (Or.inl hu)

/-- Witness for C6: source `"s"` with prior known URL `"u"` gains `"w"`. -/
theorem update_state_known_urls_union_witness :
    priorState (('s' :: [])) = some stalePrior
    ∧ ∃ st2, update_state priorState (runJob :: []) { date := 9, timeOfDay := 0 } (('s' :: []))
        = some st2
      ∧ (∀ u, u ∈ stalePrior.known_job_urls → u ∈ st2.known_job_urls)
      ∧ (∀ u, u ∈ st2.known_job_urls ↔
          (u ∈ stalePrior.known_job_urls ∨ u ∈ currentUrls (runJob :: []) (('s' :: [])))) :=
  ⟨by decide,
    update_state_known_urls_union priorState (runJob :: [])
      { date := 9, timeOfDay := 0 } (('s' :: [])) stalePrior (by decide)⟩

/-- `knownUrls`-equality of two optional source states, read as sets. -/
def sameKnownUrls : Option SourceState → Option SourceState → Prop
  | none, none => True
  | some a, some b => ∀ u, u ∈ a.known_job_urls ↔ u ∈ b.known_job_urls
  | _, _ => False

lemma update_state_apply (state : StateMap) (jobs : List Job)
    (t : PyDateTime) (sid : Str) :
    update_state state jobs t sid =
      if sourceJobs jobs sid = [] then state sid
      else
        match state sid with
        | some st =>
          some { last_scraped := t,
                 known_job_urls := listUnion st.known_job_urls (currentUrls jobs sid) }
        | none => some { last_scraped := t, known_job_urls := currentUrls jobs sid } := rfl

lemma sameKnownUrls_refl (o : Option SourceState) : sameKnownUrls o o := by
  cases o with
  | none => trivial
  | some a => exact fun u => Iff.rfl

lemma url_known_after_update (state : StateMap) (jobs : List Job)
    (t : PyDateTime) (job : Job) (hmem : job ∈ jobs) :
    ∃ st, update_state state jobs t job.source_id = some st
      ∧ job.url ∈ st.known_job_urls := by
  have hfil : job ∈ sourceJobs jobs job.source_id :=
    List.mem_filter.mpr ⟨hmem, by simp⟩
  have he : ¬ sourceJobs jobs job.source_id = [] := by
    intro e; rw [e] at hfil; cases hfil
  have hurl : job.url ∈ currentUrls jobs job.source_id :=
    List.mem_map.mpr ⟨job, hfil, rfl⟩
  unfold update_state
  rw [if_neg he]
  cases hs : state job.source_id with
  | none => exact ⟨_, rfl, hurl⟩
  | some st0 => exact ⟨_, rfl, (mem_listUnion _ _ _).mpr (Or.inr hurl)⟩

lemma find_new_jobs_nil_of_all_known (jobs : List Job) (state2 : StateMap)
    (h : ∀ job ∈ jobs, ∃ st, state2 job.source_id = some st
      ∧ job.url ∈ st.known_job_urls) :
    find_new_jobs jobs state2 = [] := by
  induction jobs with
  | nil => rfl
  | cons j rest ih =>
    obtain ⟨st, hst, hurl⟩ := h j (List.mem_cons_self _ _)
    simp only [find_new_jobs, hst, if_pos hurl]
    exact ih (fun job hm => h job (List.mem_cons_of_mem _ hm))

/-- C9: immediately re-running reconciliation on the same filtered listings
is a no-op: after `update_state`, `find_new_jobs` on the same listings
returns the empty list, and a second `update_state` leaves every source's
`knownUrls` set unchanged. -/
theorem reconcile_idempotent (jobs : List Job) (state : StateMap)
    (t t2 : PyDateTime) :
    find_new_jobs jobs (update_state state jobs t) = []
    ∧ ∀ sid, sameKnownUrls
        (update_state (update_state state jobs t) jobs t2 sid)
        (update_state state jobs t sid) := by
  constructor
  · exact find_new_jobs_nil_of_all_known jobs _
      (fun job hm => url_known_after_update state jobs t job hm)
  · intro sid
    by_cases he : sourceJobs jobs sid = []
    · have h2 : update_state (update_state state jobs t) jobs t2 sid
          = update_state state jobs t sid := by
        rw [update_state_apply, if_pos he]
      rw [h2]
      exact sameKnownUrls_refl _
    · -- the first update produced an entry whose knownUrls already
      -- contains all of this run's URLs, so the second union adds nothing
      obtain ⟨st1, hst1, hsub⟩ : ∃ st1, update_state state jobs t sid = some st1
          ∧ ∀ u, u ∈ currentUrls jobs sid → u ∈ st1.known_job_urls := by
        unfold update_state
        rw [if_neg he]
        cases state sid with
        | none => exact ⟨_, rfl, fun u hu => hu⟩
        | some st0 => exact ⟨_, rfl, fun u hu => (mem_listUnion _ _ _).mpr (Or.inr hu)⟩
      have h2 : update_state (update_state state jobs t) jobs t2 sid
          = some { last_scraped := t2,
                   known_job_urls := listUnion st1.known_job_urls (currentUrls jobs sid) } := by
        rw [update_state_apply, if_neg he, hst1]
      rw [h2, hst1]
      intro u
      rw [mem_listUnion]
      exact ⟨fun h => h.elim id (hsub u), Or.inl⟩

/-! ### C8: batch-internal duplicate flagging -/

/-- The fingerprints contributed to `seen_in_batch` by a processed prefix. -/
def keysOf (pre : List Job) : List Str := pre.filterMap Job.get_duplicate_key

lemma markGo_length (ek : List Str) (jobs : List Job) : ∀ seen,
    (markGo ek seen jobs).length = jobs.length := by
  induction jobs with
  | nil => intro seen; rfl
  | cons j rest ih =>
    intro seen
    cases hk : j.get_duplicate_key with
    | none => simp only [markGo, hk, List.length_cons, ih]
    | some k => simp only [markGo, hk, List.length_cons, ih]

lemma markGo_forall₂ (ek : List Str) (jobs : List Job) : ∀ seen,
    List.Forall₂ (fun o j => o = j ∨ o = { j with potential_duplicate := true })
      (markGo ek seen jobs) jobs := by
  induction jobs with
  | nil => intro seen; exact List.Forall₂.nil
  | cons j rest ih =>
    intro seen
    cases hk : j.get_duplicate_key with
    | none =>
      simp only [markGo, hk]
      exact List.Forall₂.cons (Or.inl rfl) (ih seen)
    | some k =>
      simp only [markGo, hk]
      refine List.Forall₂.cons ?_ (ih (k :: seen))
      by_cases hc : k ∈ ek ∨ k ∈ seen
      · rw [if_pos hc]; exact Or.inr rfl
      · rw [if_neg hc]; exact Or.inl rfl

lemma markGo_append (ek : List Str) (pre : List Job) : ∀ seen rest,
    markGo ek seen (pre ++ rest)
      = markGo ek seen pre ++ markGo ek ((keysOf pre).reverse ++ seen) rest := by
  induction pre with
  | nil => intro seen rest; simp [keysOf, markGo]
  | cons j pre' ih =>
    intro seen rest
    cases hk : j.get_duplicate_key with
    | none =>
      have hkeys : keysOf (j :: pre') = keysOf pre' := by
        simp only [keysOf, List.filterMap_cons_none hk]
      simp only [List.cons_append, markGo, hk, List.append_eq, ih seen, hkeys]
    | some k =>
      have hkeys : (keysOf (j :: pre')).reverse ++ seen
          = (keysOf pre').reverse ++ (k :: seen) := by
        simp only [keysOf, List.filterMap_cons_some hk, List.reverse_cons,
          List.append_assoc, List.singleton_append]
      simp only [List.cons_append, markGo, hk, List.append_eq, ih (k :: seen), hkeys]

/-- C8: `mark_potential_duplicates` annotates without removing — the output
is the input batch with only `potential_duplicate` flags possibly turned on
— and, batch-internally, the first listing of a fingerprint (not already in
the historical key set) is returned unchanged while every later listing of
the same fingerprint is returned with `isPotentialDuplicate = true`. -/
theorem mark_potential_duplicates_spec (jobs : List Job) (ek : List Str) :
    List.Forall₂ (fun o j => o = j ∨ o = { j with potential_duplicate := true })
      (mark_potential_duplicates jobs ek) jobs
    ∧ (∀ pre j post k, jobs = pre ++ j :: post → Job.get_duplicate_key j = some k →
        ¬ k ∈ ek → (∀ a ∈ pre, ¬ Job.get_duplicate_key a = some k) →
        (mark_potential_duplicates jobs ek)[pre.length]? = some j)
    ∧ (∀ pre j post k, jobs = pre ++ j :: post → Job.get_duplicate_key j = some k →
        (∃ a ∈ pre, Job.get_duplicate_key a = some k) →
        (mark_potential_duplicates jobs ek)[pre.length]? =
          some { j with potential_duplicate := true }) := by
  refine ⟨markGo_forall₂ ek jobs [], ?_, ?_⟩
  · intro pre j post k hdec hkey hek hpre
    subst hdec
    rw [mark_potential_duplicates, markGo_append,
      List.getElem?_append_right (Nat.le_of_eq (markGo_length ek pre []))]
    rw [markGo_length ek pre [], Nat.sub_self]
    simp only [markGo, hkey]
    rw [if_neg ?_]
    · exact List.getElem?_cons_zero
    · rintro (h | h)
      · exact hek h
      · rw [List.append_nil, List.mem_reverse] at h
        obtain ⟨a, ha, hae⟩ := List.mem_filterMap.mp h
        exact hpre a ha hae
  · intro pre j post k hdec hkey hexists
    subst hdec
    rw [mark_potential_duplicates, markGo_append,
      List.getElem?_append_right (Nat.le_of_eq (markGo_length ek pre []))]
    rw [markGo_length ek pre [], Nat.sub_self]
    simp only [markGo, hkey]
    rw [if_pos ?_]
    · exact List.getElem?_cons_zero
    · refine Or.inr ?_
      rw [List.append_nil, List.mem_reverse]
      obtain ⟨a, ha, hae⟩ := hexists
      exact List.mem_filterMap.mpr ⟨a, ha, hae⟩

/-- The spec's duplicate-flag example: company `"Acme"`, title
`"Engineering Manager"`, with case and whitespace noise on the second. -/
def dupJob1 : Job :=
  { title := (("Engineering Manager").toList), company := some (("Acme").toList),
    source_id := ('s' :: []), url := ('u' :: ('1' :: [])) }

def dupJob2 : Job :=
  { title := (("  engineering MANAGER ").toList), company := some (("ACME ").toList),
    source_id := ('s' :: []), url := ('u' :: ('2' :: [])) }

/-- Witness for C8: in a batch of two same-fingerprint listings the first
comes back unchanged (unflagged) and the second comes back flagged. -/
theorem mark_potential_duplicates_spec_witness :
    Job.get_duplicate_key dupJob1 = Job.get_duplicate_key dupJob2
    ∧ dupJob1.potential_duplicate = false
    ∧ (mark_potential_duplicates (dupJob1 :: (dupJob2 :: [])) [])[0]? = some dupJob1
    ∧ (mark_potential_duplicates (dupJob1 :: (dupJob2 :: [])) [])[1]? =
        some { dupJob2 with potential_duplicate := true } :=
  ⟨by decide, by decide,
    (mark_potential_duplicates_spec (dupJob1 :: (dupJob2 :: [])) []).2.1
      [] dupJob1 (dupJob2 :: []) (("acme|engineering manager").toList)
      rfl (by decide) (by decide) (by intro a ha; cases ha),
    (mark_potential_duplicates_spec (dupJob1 :: (dupJob2 :: [])) []).2.2
      (dupJob1 :: []) dupJob2 [] (("acme|engineering manager").toList)
      rfl (by decide) ⟨dupJob1, List.mem_cons_self _ _, by decide⟩⟩

/-! ### C4, C5: lemmas on the string primitives -/

lemma isPrefixOf_append_self (p y : Str) : p.isPrefixOf (p ++ y) = true := by
  induction p with
  | nil => simp [List.isPrefixOf]
  | cons a p' ih => simp [List.isPrefixOf, ih]

lemma eq_append_drop_of_isPrefixOf : ∀ (p s : Str), p.isPrefixOf s = true →
    s = p ++ s.drop p.length := by
  intro p
  induction p with
  | nil => intro s h; simp
  | cons a p' ih =>
    intro s h
    cases s with
    | nil => simp [List.isPrefixOf] at h
    | cons b s' =>
      simp only [List.isPrefixOf, Bool.and_eq_true, beq_iff_eq] at h
      obtain ⟨hab, hps⟩ := h
      subst hab
      simpa using ih s' hps

lemma findSplit_sound (sep : Str) : ∀ (s p r : Str),
    findSplit sep s = some (p, r) → s = p ++ (sep ++ r) := by
  intro s
  induction s with
  | nil =>
    intro p r h
    by_cases hsep : sep = []
    · subst hsep
      rw [findSplit, if_pos rfl] at h
      simp only [Option.some.injEq, Prod.mk.injEq] at h
      obtain ⟨h1, h2⟩ := h
      subst h1; subst h2; rfl
    · rw [findSplit, if_neg hsep] at h
      cases h
  | cons c rest ih =>
    intro p r h
    rw [findSplit] at h
    by_cases hpre : sep.isPrefixOf (c :: rest) = true
    · rw [if_pos hpre] at h
      simp only [Option.some.injEq, Prod.mk.injEq] at h
      obtain ⟨h1, h2⟩ := h
      subst h1; subst h2
      simpa using eq_append_drop_of_isPrefixOf sep (c :: rest) hpre
    · rw [if_neg hpre] at h
      cases hf : findSplit sep rest with
      | none => rw [hf] at h; cases h
      | some pr =>
        obtain ⟨pre, post⟩ := pr
        rw [hf] at h
        simp only [Option.some.injEq, Prod.mk.injEq] at h
        obtain ⟨h1, h2⟩ := h
        subst h1; subst h2
        simpa using ih pre post hf

lemma replaceFuel_nil (old new : Str) (n : Nat) : replaceFuel old new n [] = [] := by
  cases n <;> rfl

lemma replaceFuel_congr (old new : Str) (hold : ¬ old = []) :
    ∀ (n m : Nat) (s : Str), s.length ≤ n → s.length ≤ m →
      replaceFuel old new n s = replaceFuel old new m s := by
  have hlen : 1 ≤ old.length := by
    cases old with
    | nil => exact absurd rfl hold
    | cons _ _ => simp
  intro n
  induction n with
  | zero =>
    intro m s hn hm
    have : s = [] := List.length_eq_zero.mp (Nat.le_zero.mp hn)
    subst this
    simp [replaceFuel_nil]
  | succ n ih =>
    intro m s hn hm
    cases s with
    | nil => simp [replaceFuel_nil]
    | cons c rest =>
      cases m with
      | zero => simp at hm
      | succ m' =>
        simp only [replaceFuel]
        by_cases hpre : old.isPrefixOf (c :: rest) = true
        · rw [if_pos hpre, if_pos hpre]
          congr 1
          apply ih
          · simp only [List.length_drop, List.length_cons]
            simp only [List.length_cons] at hn
            omega
          · simp only [List.length_drop, List.length_cons]
            simp only [List.length_cons] at hm
            omega
        · rw [if_neg hpre, if_neg hpre]
          congr 1
          apply ih
          · simp only [List.length_cons] at hn; omega
          · simp only [List.length_cons] at hm; omega

lemma pyReplace_nil (old new : Str) : pyReplace old new [] = [] := by
  by_cases h : old = [] <;> simp [pyReplace, h, replaceFuel_nil]

lemma pyReplace_cons (old new : Str) (hold : ¬ old = []) (c : Char) (s : Str) :
    pyReplace old new (c :: s) =
      if old.isPrefixOf (c :: s) = true then
        new ++ pyReplace old new ((c :: s).drop old.length)
      else c :: pyReplace old new s := by
  have hlen : 1 ≤ old.length := by
    cases old with
    | nil => exact absurd rfl hold
    | cons _ _ => simp
  rw [pyReplace, if_neg hold]
  simp only [List.length_cons, replaceFuel]
  by_cases hpre : old.isPrefixOf (c :: s) = true
  · rw [if_pos hpre, if_pos hpre]
    congr 1
    rw [pyReplace, if_neg hold]
    apply replaceFuel_congr old new hold
    · simp only [List.length_drop, List.length_cons]; omega
    · exact Nat.le_refl _
  · rw [if_neg hpre, if_neg hpre]
    congr 1
    rw [pyReplace, if_neg hold]

/-- Structural form of the doubled-slash collapse `rest.replace("//", "/")`,
used only as a proof vehicle; `collapse_eq_pyReplace` ties it to the
embedding. -/
def collapse : Str → Str
  | [] => []
  | '/' :: ('/' :: rest) => '/' :: collapse rest
  | c :: rest => c :: collapse rest

lemma collapse_eq_pyReplace : ∀ s, pyReplace dslash slash s = collapse s := by
  intro s
  induction s using collapse.induct with
  | case1 => simp [pyReplace_nil, collapse]
  | case2 rest ih =>
    rw [pyReplace_cons dslash slash (by decide),
      if_pos (by simp [dslash, List.isPrefixOf])]
    have hdrop : (('/' :: ('/' :: rest)) : Str).drop dslash.length = rest := rfl
    rw [hdrop, ih, collapse]
    rfl
  | case3 c rest hcond ih =>
    have hpre : dslash.isPrefixOf (c :: rest) = false := by
      cases rest with
      | nil => simp [dslash, List.isPrefixOf]
      | cons d rest' =>
        by_cases hc : c = '/'
        · subst hc
          by_cases hd : d = '/'
          · subst hd; exact (hcond rest' rfl rfl).elim
          · simp [dslash, List.isPrefixOf, Ne.symm hd]
        · simp [dslash, List.isPrefixOf, Ne.symm hc]
    rw [pyReplace_cons dslash slash (by decide), if_neg (by simp [hpre]), ih, collapse]
    exact hcond

lemma isSubstr_nil_pat (z : Str) : isSubstr [] z = true := by
  cases z with
  | nil => rfl
  | cons c r => rw [isSubstr]; simp [List.isPrefixOf]

lemma isSubstr_cons_of (pat : Str) (c : Char) (s : Str) (h : isSubstr pat s = true) :
    isSubstr pat (c :: s) = true := by
  rw [isSubstr]
  simp [h]

lemma isSubstr_append_self (pat y : Str) : isSubstr pat (pat ++ y) = true := by
  cases pat with
  | nil => simpa using isSubstr_nil_pat y
  | cons a p' =>
    rw [List.cons_append, isSubstr]
    simp [isPrefixOf_append_self (a :: p') y]

lemma isSubstr_append_left (pat s t : Str) (h : isSubstr pat t = true) :
    isSubstr pat (s ++ t) = true := by
  induction s with
  | nil => exact h
  | cons c s' ih => exact isSubstr_cons_of pat c (s' ++ t) ih

lemma isSubstr_false_cons (pat : Str) (c : Char) (s : Str)
    (h : isSubstr pat (c :: s) = false) :
    pat.isPrefixOf (c :: s) = false ∧ isSubstr pat s = false := by
  rw [isSubstr] at h
  exact Bool.or_eq_false_iff.mp h

lemma collapse_of_not_sub (s : Str) : isSubstr dslash s = false → collapse s = s := by
  induction s using collapse.induct with
  | case1 => intro _; rfl
  | case2 rest ih =>
    intro h
    exfalso
    rw [isSubstr] at h
    simp [List.isPrefixOf, dslash] at h
  | case3 c rest hcond ih =>
    intro h
    obtain ⟨h1, h2⟩ := isSubstr_false_cons _ _ _ h
    rw [collapse, ih h2]
    exact hcond

/-- The collapse scan cannot cross into a suffix that neither starts with a
slash nor contains a doubled slash: such a suffix passes through verbatim. -/
lemma collapse_append (t : Str) (ht : t.head? ≠ some '/')
    (hsub : isSubstr dslash t = false) :
    ∀ a : Str, collapse (a ++ t) = collapse a ++ t := by
  intro a
  induction a using collapse.induct with
  | case1 => simp [collapse, collapse_of_not_sub t hsub]
  | case2 rest ih =>
    rw [List.cons_append, List.cons_append, collapse]
    rw [ih, collapse]
    rw [List.cons_append]
  | case3 c rest hcond ih =>
    have hside : ∀ (r1 : Str), c = '/' → rest ++ t = '/' :: r1 → False := by
      intro r1 hc he
      cases hrest : rest with
      | nil =>
        subst hrest
        rw [List.nil_append] at he
        apply ht
        rw [he]
        rfl
      | cons d rest' =>
        subst hrest
        rw [List.cons_append] at he
        injection he with he1 he2
        exact hcond rest' hc (by rw [he1])
    rw [List.cons_append, collapse]
    · rw [ih, collapse]
      · rw [List.cons_append]
      · exact hcond
    · exact hside

/-- `repairJobsHost` is the identity when `"://jobs/"` does not occur. -/
lemma repairJobsHost_id (href s : Str) (h1 : isSubstr jobsPat href = false) :
    repairJobsHost href s = href := by
  rw [repairJobsHost, h1]
  simp

/-- `clean_job_url` is the identity on URLs with no `"://jobs/"` and no
doubled slash after the scheme separator. -/
lemma clean_job_url_noop (h s : Str) (h1 : isSubstr jobsPat h = false)
    (h2 : isSubstr dslash (restOfScheme h) = false) : clean_job_url h s = h := by
  rw [clean_job_url]
  by_cases hnil : h = []
  · rw [if_pos hnil]
  · rw [if_neg hnil, repairJobsHost_id h s h1]
    cases hf : findSplit schemePat h with
    | none => simp only [hf]
    | some pr =>
      obtain ⟨p, r⟩ := pr
      have hrest : restOfScheme h = r := by rw [restOfScheme, hf]
      rw [hrest] at h2
      have hsound := findSplit_sound schemePat h p r hf
      simp only [hf]
      rw [collapse_eq_pyReplace, collapse_of_not_sub r h2, hsound,
        List.append_assoc]

/-- C4 counterexample: `clean_job_url` is not idempotent — on
`"http://a///b"` one pass yields `"http://a//b"` (Python's `replace("//",
"/")` scans left to right without rescanning), and a second pass yields
`"http://a/b"`. -/
theorem clean_job_url_idempotent_cex :
    clean_job_url (("http://a///b").toList) [] = (("http://a//b").toList)
    ∧ clean_job_url (clean_job_url (("http://a///b").toList) []) []
        = (("http://a/b").toList)
    ∧ clean_job_url (clean_job_url (("http://a///b").toList) []) []
        ≠ clean_job_url (("http://a///b").toList) [] := by
  refine ⟨by decide, by decide, by decide⟩

/-- C4 amended: normalization is idempotent on every input whose normalized
form is in normal form — no `"://jobs/"` and no doubled slash after the
scheme (equivalently: normalizing an already-normalized URL is a no-op);
unrestricted idempotence fails (see the counterexample, where a doubled
slash survives the single left-to-right collapse pass). -/
theorem clean_job_url_idempotent_of_normalized (href s : Str)
    (h : isNormalizedUrl (clean_job_url href s) = true) :
    clean_job_url (clean_job_url href s) s = clean_job_url href s := by
  rw [isNormalizedUrl, Bool.and_eq_true, Bool.not_eq_true', Bool.not_eq_true'] at h
  exact clean_job_url_noop (clean_job_url href s) s h.1 h.2

/-- Witness for C4 (amended) at `href = "http://a//b"`, whose normalized
form `"http://a/b"` is in normal form. -/
theorem clean_job_url_idempotent_witness :
    isNormalizedUrl (clean_job_url (("http://a//b").toList) []) = true
    ∧ clean_job_url (clean_job_url (("http://a//b").toList) []) []
        = clean_job_url (("http://a//b").toList) [] :=
  ⟨by decide, clean_job_url_idempotent_of_normalized (("http://a//b").toList) [] (by decide)⟩

/-! ### C5: query and fragment preservation -/

lemma takeWhile_append_all (p : Char → Bool) (l₁ l₂ : List Char)
    (h : ∀ x ∈ l₁, p x = true) :
    (l₁ ++ l₂).takeWhile p = l₁ ++ l₂.takeWhile p := by
  induction l₁ with
  | nil => simp
  | cons a l ih =>
    simp [List.takeWhile_cons, h a (List.mem_cons_self a l),
      ih (fun x hx => h x (List.mem_cons_of_mem _ hx))]

lemma dropWhile_append_all (p : Char → Bool) (l₁ l₂ : List Char)
    (h : ∀ x ∈ l₁, p x = true) :
    (l₁ ++ l₂).dropWhile p = l₂.dropWhile p := by
  induction l₁ with
  | nil => simp
  | cons a l ih =>
    simp [List.dropWhile_cons, h a (List.mem_cons_self a l),
      ih (fun x hx => h x (List.mem_cons_of_mem _ hx))]

lemma dropWhile_append_stop (p : Char → Bool) (l₁ l₂ : List Char)
    (h : ∃ x ∈ l₁, p x = false) :
    (l₁ ++ l₂).dropWhile p = l₁.dropWhile p ++ l₂ := by
  rw [List.dropWhile_append]
  have hne : ¬ (l₁.dropWhile p).isEmpty = true := by
    rw [List.isEmpty_iff, List.dropWhile_eq_nil_iff]
    push_neg
    obtain ⟨x, hx, hpx⟩ := h
    exact ⟨x, hx, by simp [hpx]⟩
  rw [if_neg hne]

lemma dropWhile_head_false (p : Char → Bool) : ∀ (l : List Char) (d : Char) (t : List Char),
    l.dropWhile p = d :: t → p d = false := by
  intro l
  induction l with
  | nil => intro d t h; cases h
  | cons a l' ih =>
    intro d t h
    rw [List.dropWhile_cons] at h
    by_cases hp : p a = true
    · rw [if_pos hp] at h; exact ih d t h
    · rw [if_neg hp] at h
      injection h with h1 _
      subst h1
      simpa using hp

/-- No character of `l` opens a query or fragment. -/
def SpecFree (l : Str) : Prop := ∀ c ∈ l, isSpec c = false

lemma specFree_append (a b : Str) (ha : SpecFree a) (hb : SpecFree b) :
    SpecFree (a ++ b) := by
  intro c hc
  rcases List.mem_append.mp hc with h | h
  · exact ha c h
  · exact hb c h

lemma specFree_schemePat : SpecFree schemePat := by
  intro c hc
  simp only [schemePat, List.mem_cons, List.not_mem_nil, or_false] at hc
  rcases hc with h | h | h <;> subst h <;> decide

lemma queryOf_specFree_append (P t : Str) (hP : SpecFree P) :
    queryOf (P ++ t) = queryOf t ∧ fragmentOf (P ++ t) = fragmentOf t := by
  have hq : ∀ c ∈ P, (!(c = '#' : Bool)) = true := by
    intro c hc
    have hs := hP c hc
    simp only [isSpec, Bool.or_eq_false_iff] at hs
    simpa using hs.2
  have hq2 : ∀ c ∈ P, (!(c = '?' : Bool)) = true := by
    intro c hc
    have hs := hP c hc
    simp only [isSpec, Bool.or_eq_false_iff] at hs
    simpa using hs.1
  constructor
  · rw [queryOf, queryOf, takeWhile_append_all _ _ _ hq, dropWhile_append_all _ _ _ hq2]
  · rw [fragmentOf, fragmentOf, dropWhile_append_all _ _ _ hq]

lemma tailFrom_append_specFree (P X : Str) (hP : SpecFree P) :
    tailFrom (P ++ X) = tailFrom X := by
  rw [tailFrom, tailFrom]
  apply dropWhile_append_all
  intro c hc
  simp [hP c hc]

lemma tailFrom_append_hasSpec (P X : Str) (h : ∃ c ∈ P, isSpec c = true) :
    tailFrom (P ++ X) = tailFrom P ++ X := by
  rw [tailFrom, tailFrom]
  apply dropWhile_append_stop
  obtain ⟨c, hc, hs⟩ := h
  exact ⟨c, hc, by simp [hs]⟩

lemma tailFrom_head_spec (h : Str) (d : Char) (t : Str)
    (ht : tailFrom h = d :: t) : isSpec d = true := by
  have := dropWhile_head_false _ h d t ht
  simpa using this

lemma specFree_takeWhile (l : Str) :
    SpecFree (l.takeWhile (fun c => !(isSpec c))) := by
  intro c hc
  have := List.mem_takeWhile_imp hc
  simpa using this

lemma mem_collapse (s : Str) : ∀ c, c ∈ collapse s → c ∈ s := by
  induction s using collapse.induct with
  | case1 => intro c hc; simp [collapse] at hc
  | case2 rest ih =>
    intro c hc
    rw [collapse] at hc
    rcases List.mem_cons.mp hc with he | hm
    · subst he; exact List.mem_cons_self _ _
    · exact List.mem_cons_of_mem _ (List.mem_cons_of_mem _ (ih c hm))
  | case3 c' rest hcond ih =>
    intro c hc
    rw [collapse] at hc
    · rcases List.mem_cons.mp hc with he | hm
      · subst he; exact List.mem_cons_self _ _
      · exact List.mem_cons_of_mem _ (ih c hm)
    · exact hcond

lemma specFree_collapse (l : Str) (h : SpecFree l) : SpecFree (collapse l) :=
  fun c hc => h c (mem_collapse l c hc)

/-- C5 counterexample: the doubled-slash collapse also runs inside the query
string — on `"http://h/p?a=//b"` the query changes from `"a=//b"` to
`"a=/b"`, so normalization does not leave queries untouched. -/
theorem clean_job_url_query_cex :
    queryOf (("http://h/p?a=//b").toList) = (("a=//b").toList)
    ∧ queryOf (clean_job_url (("http://h/p?a=//b").toList) []) = (("a=/b").toList)
    ∧ ¬ queryOf (clean_job_url (("http://h/p?a=//b").toList) [])
        = queryOf (("http://h/p?a=//b").toList) := by
  refine ⟨by decide, by decide, by decide⟩

/-- C5 amended: `clean_job_url` leaves the query and the fragment
character-for-character unchanged provided `href` does not contain
`"://jobs/"` and the suffix of `href` from its first `'?'` or `'#'` on
contains no doubled slash; without that proviso the collapse (and, with a
crafted reference URL, the host splice) rewrites query/fragment text, as
the counterexample shows. -/
theorem clean_job_url_preserves_query_fragment (href s : Str)
    (_h0 : isSubstr (('?') :: []) href = true ∨ isSubstr (('#') :: []) href = true)
    (h1 : isSubstr jobsPat href = false)
    (h2 : isSubstr dslash (tailFrom href) = false) :
    queryOf (clean_job_url href s) = queryOf href
    ∧ fragmentOf (clean_job_url href s) = fragmentOf href := by
  rw [clean_job_url]
  by_cases hnil : href = []
  · rw [if_pos hnil]; exact ⟨rfl, rfl⟩
  rw [if_neg hnil, repairJobsHost_id href s h1]
  cases hf : findSplit schemePat href with
  | none => simp only [hf]; exact ⟨trivial, trivial⟩
  | some pr =>
    obtain ⟨p, r⟩ := pr
    simp only [hf]
    have hsound := findSplit_sound schemePat href p r hf
    have hPfree : SpecFree p := by
      by_contra hcon
      rw [SpecFree] at hcon
      push_neg at hcon
      obtain ⟨c, hc, hcs⟩ := hcon
      have hcs' : isSpec c = true := by simpa using hcs
      have htail : tailFrom href = tailFrom p ++ (schemePat ++ r) := by
        rw [hsound]
        exact tailFrom_append_hasSpec p _ ⟨c, hc, hcs'⟩
      have hdd : isSubstr dslash (tailFrom href) = true := by
        rw [htail]
        apply isSubstr_append_left
        have hsch : schemePat ++ r = ':' :: (dslash ++ r) := rfl
        rw [hsch]
        exact isSubstr_cons_of _ _ _ (isSubstr_append_self dslash r)
      rw [hdd] at h2; cases h2
    have htail : tailFrom href = tailFrom r := by
      rw [hsound, ← List.append_assoc]
      exact tailFrom_append_specFree (p ++ schemePat) r
        (specFree_append _ _ hPfree specFree_schemePat)
    rw [htail] at h2
    have hr : r.takeWhile (fun c => !(isSpec c)) ++ tailFrom r = r := by
      rw [tailFrom, List.takeWhile_append_dropWhile]
    have hhead : (tailFrom r).head? ≠ some '/' := by
      cases he : tailFrom r with
      | nil => simp
      | cons d t =>
        have hds := tailFrom_head_spec r d t he
        simp only [List.head?_cons]
        intro hcon
        injection hcon with hd
        subst hd
        simp [isSpec] at hds
    have hcol : pyReplace dslash slash r
        = pyReplace dslash slash (r.takeWhile (fun c => !(isSpec c))) ++ tailFrom r := by
      rw [collapse_eq_pyReplace, collapse_eq_pyReplace]
      conv_lhs => rw [← hr]
      exact collapse_append (tailFrom r) hhead h2 _
    have hCfree : SpecFree (pyReplace dslash slash (r.takeWhile (fun c => !(isSpec c)))) := by
      rw [collapse_eq_pyReplace]
      exact specFree_collapse _ (specFree_takeWhile r)
    have hPS : SpecFree (p ++ schemePat) :=
      specFree_append _ _ hPfree specFree_schemePat
    constructor
    · rw [(queryOf_specFree_append (p ++ schemePat) _ hPS).1, hcol,
        (queryOf_specFree_append _ _ hCfree).1, hsound,
        (queryOf_specFree_append p _ hPfree).1,
        (queryOf_specFree_append schemePat _ specFree_schemePat).1]
      conv_rhs => rw [← hr]
      rw [(queryOf_specFree_append _ _ (specFree_takeWhile r)).1]
    · rw [(queryOf_specFree_append (p ++ schemePat) _ hPS).2, hcol,
        (queryOf_specFree_append _ _ hCfree).2, hsound,
        (queryOf_specFree_append p _ hPfree).2,
        (queryOf_specFree_append schemePat _ specFree_schemePat).2]
      conv_rhs => rw [← hr]
      rw [(queryOf_specFree_append _ _ (specFree_takeWhile r)).2]

/-- Witness for C5 (amended) at `"http://h//x/p?a=b#f"`: the path's doubled
slash is collapsed while query `"a=b"` and fragment `"f"` survive. -/
theorem clean_job_url_preserves_query_fragment_witness :
    isSubstr (('?') :: []) (("http://h//x/p?a=b#f").toList) = true
    ∧ isSubstr jobsPat (("http://h//x/p?a=b#f").toList) = false
    ∧ isSubstr dslash (tailFrom (("http://h//x/p?a=b#f").toList)) = false
    ∧ (queryOf (clean_job_url (("http://h//x/p?a=b#f").toList) [])
        = queryOf (("http://h//x/p?a=b#f").toList)
      ∧ fragmentOf (clean_job_url (("http://h//x/p?a=b#f").toList) [])
        = fragmentOf (("http://h//x/p?a=b#f").toList)) :=
  ⟨by decide, by decide, by decide,
    clean_job_url_preserves_query_fragment (("http://h//x/p?a=b#f").toList) []
      (Or.inl (by decide)) (by decide) (by decide)⟩

end JobChecker
